import Mathlib

/-!
Kalman filter estimator (`kalman_filter.cpp`)

A shallow embedding of the `KalmanFilter` class of the Extended Kalman Filter
project and the properties of its predict / update cycle.

Conventions of the embedding.

* Scalars are the elements of a field `α` with decidable equality: the C++ `double`
  (and the `float` locals of `ProjectToMeasurmentSpace`) read as exact numbers.
  Rounding is not part of the model.
* `VectorXd` of size `n` is `Fin n → α`, `MatrixXd` of shape `r × c` is
  `Matrix (Fin r) (Fin c) α`.  The dimensions of the six members are tied together by
  the type `KalmanFilter n m α`, so only conforming states exist.  For the calls made
  before `Init` the shapes are kept as run-time data (`KalmanFilterXd`, `PredictXd`).
* The member functions are `void` and mutate `x_` and `P_`; here they map the
  state before the call to the state after it.  Eigen evaluates a matrix product into
  a temporary before it is added or assigned, so the right-hand side of an assignment
  reads the members as they were before that assignment.
* An arithmetic step without a value among exact numbers (the inverse of a singular
  matrix, a quotient by zero) makes the result of the call `none`.  The C++ code has no
  check and raises nothing at such a step: floating point goes on with an infinite or
  NaN value, which flows into whatever is computed from it.  So `none` is *not* an
  error report; it says that the call has no resulting state among exact numbers.
-/

namespace Kalman

open Matrix

/-- The two `<cmath>` functions called by `ProjectToMeasurmentSpace`. -/
class CMath (α : Type) where
  /-- The function `sqrt`. -/
  sqrt : α → α
  /-- The function `atan2`, first argument the ordinate. -/
  atan2 : α → α → α

/-- The data members of `class KalmanFilter`: state vector `x_`, state covariance `P_`,
state transition `F_`, measurement matrix `H_`, measurement covariance `R_` and
process covariance `Q_`, for state dimension `n` and measurement dimension `m`. -/
structure KalmanFilter (n m : ℕ) (α : Type) where
  /-- State vector. -/
  x_ : Fin n → α
  /-- State covariance matrix. -/
  P_ : Matrix (Fin n) (Fin n) α
  /-- State transition matrix. -/
  F_ : Matrix (Fin n) (Fin n) α
  /-- Measurement matrix. -/
  H_ : Matrix (Fin m) (Fin n) α
  /-- Measurement covariance matrix. -/
  R_ : Matrix (Fin m) (Fin m) α
  /-- Process covariance matrix. -/
  Q_ : Matrix (Fin n) (Fin n) α

variable {α : Type} {n m : ℕ}

/-- The constructor `KalmanFilter::KalmanFilter() {}`: every member is default
constructed, that is, empty (size `0`, shape `0 × 0`). -/
def KalmanFilter.new [Zero α] : KalmanFilter 0 0 α :=
  ⟨0, 0, 0, 0, 0, 0⟩

/-- The function `KalmanFilter::Init`: the six arguments are assigned to the six members.
Assignment of an Eigen object replaces size and contents, so the members of the prior
state `s` (of any dimensions `n`, `m`) do not survive. -/
def Init {k l : ℕ} (_s : KalmanFilter n m α) (x_in : Fin k → α) (P_in : Matrix (Fin k) (Fin k) α)
    (F_in : Matrix (Fin k) (Fin k) α) (H_in : Matrix (Fin l) (Fin k) α)
    (R_in : Matrix (Fin l) (Fin l) α) (Q_in : Matrix (Fin k) (Fin k) α) : KalmanFilter k l α :=
  { x_ := x_in, P_ := P_in, F_ := F_in, H_ := H_in, R_ := R_in, Q_ := Q_in }

/-- The function `KalmanFilter::Predict`, its two assignments in the order of the source. -/
def Predict [Field α] (s : KalmanFilter n m α) : KalmanFilter n m α :=
  let s₁ := { s with x_ := s.F_ *ᵥ s.x_ }
  { s₁ with P_ := (s₁.F_ * s₁.P_ * s₁.F_.transpose) + s₁.Q_ }

/-- Eigen's `inverse()` over exact numbers.  The inverse is obtained by elimination, which
divides by the pivots; their product is the determinant up to sign, so the computation has
a value exactly when the determinant is not zero, and the value is then the inverse matrix
(`inverse_eq_some_iff` below). -/
def inverse [Field α] [DecidableEq α] (S : Matrix (Fin m) (Fin m) α) :
    Option (Matrix (Fin m) (Fin m) α) :=
  if S.det = 0 then none else some (S.det⁻¹ • S.adjugate)

/-- The function `KalmanFilter::Update`. -/
def Update [Field α] [DecidableEq α] (s : KalmanFilter n m α) (z : Fin m → α) :
    Option (KalmanFilter n m α) :=
  let y := z - (s.H_ *ᵥ s.x_)
  let Ht := s.H_.transpose
  let S := (s.H_ * s.P_ * Ht) + s.R_
  match inverse S with
  | none => none
  | some Sinv =>
    let K := s.P_ * Ht * Sinv
    let s₁ := { s with x_ := s.x_ + (K *ᵥ y) }
    some { s₁ with P_ := ((1 : Matrix (Fin n) (Fin n) α) - (K * s₁.H_)) * s₁.P_ }

/-- The function `KalmanFilter::ProjectToMeasurmentSpace`.  It is a non-const member
function, so the state after the call is returned next to the measurement vector.  The
locals are `float` in the source; the narrowing from `double` is a rounding and is not
modelled.  The quotient by `norm` has no value when `norm` is zero. -/
def ProjectToMeasurmentSpace [Field α] [DecidableEq α] [CMath α] (s : KalmanFilter 4 3 α) :
    Option ((Fin 3 → α) × KalmanFilter 4 3 α) :=
  let px := s.x_ 0
  let py := s.x_ 1
  let vx := s.x_ 2
  let vy := s.x_ 3
  let norm := CMath.sqrt ((px * px) + (py * py))
  if norm = 0 then none
  else some (![norm, CMath.atan2 py px, ((px * vx) + (py * vy)) / norm], s)

/-- The local `y` of `KalmanFilter::UpdateEKF` (its first statement), with the state left
by the call of `ProjectToMeasurmentSpace`. -/
def UpdateEKF_y [Field α] [DecidableEq α] [CMath α] (s : KalmanFilter 4 3 α) (z : Fin 3 → α) :
    Option ((Fin 3 → α) × KalmanFilter 4 3 α) :=
  match ProjectToMeasurmentSpace s with
  | none => none
  | some (hx, s₀) => some (z - hx, s₀)

/-- The function `KalmanFilter::UpdateEKF`. -/
def UpdateEKF [Field α] [DecidableEq α] [CMath α] (s : KalmanFilter 4 3 α) (z : Fin 3 → α) :
    Option (KalmanFilter 4 3 α) :=
  match UpdateEKF_y s z with
  | none => none
  | some (y, s₀) =>
    let Ht := s₀.H_.transpose
    let S := (s₀.H_ * s₀.P_ * Ht) + s₀.R_
    match inverse S with
    | none => none
    | some Sinv =>
      let K := s₀.P_ * Ht * Sinv
      let s₁ := { s₀ with x_ := s₀.x_ + (K *ᵥ y) }
      some { s₁ with P_ := ((1 : Matrix (Fin 4) (Fin 4) α) - (K * s₁.H_)) * s₁.P_ }

/-- Exact real numbers: `sqrt` is the real square root and `atan2 y x` the argument, in
`(-π, π]`, of the point `(x, y)`. -/
noncomputable instance : CMath ℝ where
  sqrt := Real.sqrt
  atan2 y x := Complex.arg ⟨x, y⟩

/-! ## Run-time shapes

The type `KalmanFilter n m α` holds conforming states only.  The Eigen containers carry
their shape at run time, and a default constructed one is empty.  The definitions below
keep the shape as data, for the calls made before `Init`; a product or sum whose shapes
do not fit has no result (Eigen asserts the shapes and nothing is defined beyond that). -/

/-- Eigen's `VectorXd`: the coefficients with the run-time size. -/
structure VectorXd (α : Type) where
  /-- Number of coefficients. -/
  size : ℕ
  /-- The coefficients. -/
  coeff : Fin size → α

/-- Eigen's `MatrixXd`: the coefficients with the run-time shape. -/
structure MatrixXd (α : Type) where
  /-- Number of rows. -/
  rows : ℕ
  /-- Number of columns. -/
  cols : ℕ
  /-- The coefficients. -/
  coeff : Matrix (Fin rows) (Fin cols) α

/-- A default constructed `VectorXd`: size `0`. -/
def VectorXd.empty : VectorXd α :=
  ⟨0, fun i => i.elim0⟩

/-- A default constructed `MatrixXd`: shape `0 × 0`. -/
def MatrixXd.empty : MatrixXd α :=
  ⟨0, 0, fun i _ => i.elim0⟩

/-- The product `A * v` of a `MatrixXd` and a `VectorXd`; the columns of `A` must be as many
as the coefficients of `v`. -/
def MatrixXd.mulVec [Field α] (A : MatrixXd α) (v : VectorXd α) : Option (VectorXd α) :=
  if h : A.cols = v.size then some ⟨A.rows, A.coeff *ᵥ fun j => v.coeff (Fin.cast h j)⟩
  else none

/-- The product `A * B` of two `MatrixXd`; the columns of `A` must be as many as the rows
of `B`. -/
def MatrixXd.mul [Field α] (A B : MatrixXd α) : Option (MatrixXd α) :=
  if h : A.cols = B.rows then
    some ⟨A.rows, B.cols, A.coeff * Matrix.of fun i j => B.coeff (Fin.cast h i) j⟩
  else none

/-- The transpose `A.transpose()` of a `MatrixXd`. -/
def MatrixXd.transpose (A : MatrixXd α) : MatrixXd α :=
  ⟨A.cols, A.rows, A.coeffᵀ⟩

/-- The sum `A + B` of two `MatrixXd`; the shapes must be the same. -/
def MatrixXd.add [Field α] (A B : MatrixXd α) : Option (MatrixXd α) :=
  if h : A.rows = B.rows ∧ A.cols = B.cols then
    some ⟨A.rows, A.cols,
      A.coeff + Matrix.of fun i j => B.coeff (Fin.cast h.1 i) (Fin.cast h.2 j)⟩
  else none

/-- Modelled from the spec: the class declaration (`kalman_filter.h`) is not among the
sources.  The members are the spec's state vector and its five matrices, held in the
dynamic-size containers of the arguments that `Init` assigns to them (`VectorXd` for `x_`,
`MatrixXd` for the others), with no further member: the spec lists no flag that records a
call of `Init`, and no member function reads one. -/
structure KalmanFilterXd (α : Type) where
  /-- State vector. -/
  x_ : VectorXd α
  /-- State covariance matrix. -/
  P_ : MatrixXd α
  /-- State transition matrix. -/
  F_ : MatrixXd α
  /-- Measurement matrix. -/
  H_ : MatrixXd α
  /-- Measurement covariance matrix. -/
  R_ : MatrixXd α
  /-- Process covariance matrix. -/
  Q_ : MatrixXd α

/-- The constructor `KalmanFilter::KalmanFilter() {}` with run-time shapes: its body is
empty, so every member is default constructed. -/
def KalmanFilterXd.new : KalmanFilterXd α :=
  ⟨VectorXd.empty, MatrixXd.empty, MatrixXd.empty, MatrixXd.empty, MatrixXd.empty,
    MatrixXd.empty⟩

/-- A conforming state with its shapes as run-time data. -/
def KalmanFilter.toXd (s : KalmanFilter n m α) : KalmanFilterXd α :=
  { x_ := ⟨n, s.x_⟩
    P_ := ⟨n, n, s.P_⟩
    F_ := ⟨n, n, s.F_⟩
    H_ := ⟨m, n, s.H_⟩
    R_ := ⟨m, m, s.R_⟩
    Q_ := ⟨n, n, s.Q_⟩ }

/-- The function `KalmanFilter::Predict` with run-time shapes: the two assignments of the
source, each product and sum with Eigen's condition on the shapes.  There is no other
condition in the function. -/
def PredictXd [Field α] (s : KalmanFilterXd α) : Option (KalmanFilterXd α) :=
  match s.F_.mulVec s.x_ with
  | none => none
  | some x =>
    let s₁ := { s with x_ := x }
    match s₁.F_.mul s₁.P_ with
    | none => none
    | some FP =>
      match FP.mul s₁.F_.transpose with
      | none => none
      | some FPFt =>
        match FPFt.add s₁.Q_ with
        | none => none
        | some P => some { s₁ with P_ := P }

/-! ## Example states -/

/-- A state with two state components and one measured component, over the rationals. -/
def exampleState : KalmanFilter 2 1 ℚ :=
  { x_ := ![1, 2]
    P_ := !![1, 0; 0, 1]
    F_ := !![1, 1; 0, 1]
    H_ := !![1, 0]
    R_ := !![1]
    Q_ := !![0, 0; 0, 1] }

/-- The inverse of the innovation covariance `S = 2` of `exampleState`. -/
def exampleSinv : Matrix (Fin 1) (Fin 1) ℚ :=
  !![1 / 2]

/-- The state `exampleState` with `R = 0` and a covariance for which `H·P·Hᵗ = 0`. -/
def singularState : KalmanFilter 2 1 ℚ :=
  { exampleState with
    P_ := !![0, 0; 0, 1]
    R_ := !![0] }

/-- A radar state at range `1` with a given bearing, at rest; `H_` picks three of the
four state components. -/
noncomputable def radarState (bearing : ℝ) : KalmanFilter 4 3 ℝ :=
  { x_ := ![Real.cos bearing, Real.sin bearing, 0, 0]
    P_ := 1
    F_ := 1
    H_ := Matrix.of fun i j => if (i : ℕ) = j then 1 else 0
    R_ := 1
    Q_ := 0 }

/-- A radar state at position `(3, 4)` (range `5`) with velocity `(1, 2)`. -/
def trackState : KalmanFilter 4 3 ℝ :=
  { x_ := ![3, 4, 1, 2]
    P_ := 1
    F_ := 1
    H_ := Matrix.of fun i j => if (i : ℕ) = j then 1 else 0
    R_ := 1
    Q_ := 0 }

/-- The inverse of the innovation covariance `S = 2·I` of `trackState`. -/
noncomputable def trackSinv : Matrix (Fin 3) (Fin 3) ℝ :=
  (1 / 2 : ℝ) • 1

/-- A state over the real numbers with unit covariances, two state components and one
measured component. -/
def unitState : KalmanFilter 2 1 ℝ :=
  { x_ := ![1, 2]
    P_ := 1
    F_ := !![1, 1; 0, 1]
    H_ := !![1, 0]
    R_ := 1
    Q_ := 0 }

/-- A state at the origin (range zero) with velocity `(1, 2)`. -/
def originState : KalmanFilter 4 3 ℝ :=
  { x_ := ![0, 0, 1, 2]
    P_ := 1
    F_ := 1
    H_ := Matrix.of fun i j => if (i : ℕ) = j then 1 else 0
    R_ := 1
    Q_ := 0 }

/-- A state with position and velocity in one dimension, the constant-velocity transition
for a unit time step, no process noise, and a covariance in which position and velocity
are perfectly anti-correlated. -/
def anticorrelatedState : KalmanFilter 2 1 ℝ :=
  { x_ := ![1, 2]
    P_ := !![1, -1; -1, 1]
    F_ := !![1, 1; 0, 1]
    H_ := !![1, 0]
    R_ := 1
    Q_ := 0 }

/-- A factor of the covariance of `anticorrelatedState`: `P = Bᵗ·B` for `B = (1 −1)`. -/
def anticorrelatedRoot : Matrix (Fin 1) (Fin 2) ℝ :=
  !![1, -1]

/-- The constant-velocity transition matrix for the time step `dt`, acting on the state
`(px, py, vx, vy)`. -/
def constantVelocity [Field α] (dt : α) : Matrix (Fin 4) (Fin 4) α :=
  !![1, 0, dt, 0; 0, 1, 0, dt; 0, 0, 1, 0; 0, 0, 0, 1]

/-- A state at position `(3, 4)` with velocity `(1, 2)`, the constant-velocity transition
for the time step `1/2` and no process noise, over the rationals. -/
def coastingState : KalmanFilter 4 3 ℚ :=
  { x_ := ![3, 4, 1, 2]
    P_ := 1
    F_ := constantVelocity (1 / 2)
    H_ := Matrix.of fun i j => if (i : ℕ) = j then 1 else 0
    R_ := 1
    Q_ := 0 }

/-- The state `exampleState` with an exact sensor, `R = 0`; here `S = H·P·Hᵗ = 1`. -/
def exactState : KalmanFilter 2 1 ℚ :=
  { exampleState with R_ := !![0] }

/-- A state whose transition stretches every direction (`FᵗF − I = [[3,2],[2,4]]`), with
unit covariances `P`, `Q` and `R`. -/
def expandingState : KalmanFilter 2 1 ℝ :=
  { x_ := ![1, 2]
    P_ := 1
    F_ := !![2, 1; 0, 2]
    H_ := !![1, 0]
    R_ := 1
    Q_ := 1 }

/-- The state `exampleState` with run-time shapes, its `x_` replaced by a vector of size `3`
while `F_` has the shape `2 × 2`. -/
def misshapenState : KalmanFilterXd ℚ :=
  { exampleState.toXd with x_ := ⟨3, ![1, 2, 3]⟩ }

/-! ## The inverse -/

section lemmas
variable [Field α] [DecidableEq α]

theorem inverse_eq_none_iff (S : Matrix (Fin m) (Fin m) α) : inverse S = none ↔ S.det = 0 := by
  unfold inverse
  split_ifs with h <;> simp [h]

theorem inverse_of_det_ne_zero {S : Matrix (Fin m) (Fin m) α} (h : S.det ≠ 0) :
    inverse S = some S⁻¹ := by
  unfold inverse
  rw [if_neg h, Matrix.inv_def, Ring.inverse_eq_inv']

/-- The value of `inverse`, when there is one, is the inverse matrix, and there is a value
whenever an inverse matrix exists. -/
theorem inverse_eq_some_iff (S Sinv : Matrix (Fin m) (Fin m) α) :
    inverse S = some Sinv ↔ S * Sinv = 1 := by
  constructor
  · intro h
    have hd : S.det ≠ 0 := by
      intro h0
      rw [(inverse_eq_none_iff S).2 h0] at h
      exact Option.noConfusion h
    rw [inverse_of_det_ne_zero hd] at h
    have hu : IsUnit S.det := isUnit_iff_ne_zero.2 hd
    rw [← Option.some.inj h]
    exact Matrix.mul_nonsing_inv S hu
  · intro h
    have hu : IsUnit S.det := Matrix.isUnit_det_of_right_inverse h
    rw [inverse_of_det_ne_zero hu.ne_zero, Matrix.inv_eq_right_inv h]

/-- The state after `Update` in terms of an inverse of the innovation covariance. -/
theorem Update_of_inverse (s : KalmanFilter n m α) (z : Fin m → α)
    (Sinv : Matrix (Fin m) (Fin m) α) (hS : (s.H_ * s.P_ * s.H_ᵀ + s.R_) * Sinv = 1) :
    Update s z = some
      { x_ := s.x_ + (s.P_ * s.H_ᵀ * Sinv) *ᵥ (z - s.H_ *ᵥ s.x_)
        P_ := (1 - (s.P_ * s.H_ᵀ * Sinv) * s.H_) * s.P_
        F_ := s.F_
        H_ := s.H_
        R_ := s.R_
        Q_ := s.Q_ } := by
  have h := (inverse_eq_some_iff _ _).2 hS
  simp only [Update, h]

/-- Without an inverse of the innovation covariance `Update` has no resulting state. -/
theorem Update_of_det_eq_zero (s : KalmanFilter n m α) (z : Fin m → α)
    (hS : (s.H_ * s.P_ * s.H_ᵀ + s.R_).det = 0) : Update s z = none := by
  have h := (inverse_eq_none_iff _).2 hS
  simp only [Update, h]

end lemmas

/-! ## The projection over the real numbers -/

theorem real_norm_ne_zero {px py : ℝ} (h : px ^ 2 + py ^ 2 ≠ 0) :
    Real.sqrt ((px * px) + (py * py)) ≠ 0 := by
  have h0 : 0 ≤ px * px + py * py := add_nonneg (mul_self_nonneg px) (mul_self_nonneg py)
  rw [Ne, Real.sqrt_eq_zero h0]
  intro h1
  exact h (by rw [← h1]; ring)

theorem Project_of_range_ne_zero (s : KalmanFilter 4 3 ℝ) (h : s.x_ 0 ^ 2 + s.x_ 1 ^ 2 ≠ 0) :
    ProjectToMeasurmentSpace s = some
      (![Real.sqrt (s.x_ 0 ^ 2 + s.x_ 1 ^ 2), Complex.arg ⟨s.x_ 0, s.x_ 1⟩,
          (s.x_ 0 * s.x_ 2 + s.x_ 1 * s.x_ 3) / Real.sqrt (s.x_ 0 ^ 2 + s.x_ 1 ^ 2)], s) := by
  have hn := real_norm_ne_zero h
  have e : s.x_ 0 ^ 2 + s.x_ 1 ^ 2 = s.x_ 0 * s.x_ 0 + s.x_ 1 * s.x_ 1 := by ring
  simp only [ProjectToMeasurmentSpace, CMath.sqrt, CMath.atan2, if_neg hn, e]

theorem UpdateEKF_y_of_range_ne_zero (s : KalmanFilter 4 3 ℝ) (z : Fin 3 → ℝ)
    (h : s.x_ 0 ^ 2 + s.x_ 1 ^ 2 ≠ 0) :
    UpdateEKF_y s z = some
      (z - ![Real.sqrt (s.x_ 0 ^ 2 + s.x_ 1 ^ 2), Complex.arg ⟨s.x_ 0, s.x_ 1⟩,
          (s.x_ 0 * s.x_ 2 + s.x_ 1 * s.x_ 3) / Real.sqrt (s.x_ 0 ^ 2 + s.x_ 1 ^ 2)], s) := by
  simp only [UpdateEKF_y, Project_of_range_ne_zero s h]

theorem radarState_range (b : ℝ) : (radarState b).x_ 0 ^ 2 + (radarState b).x_ 1 ^ 2 = 1 := by
  simp [radarState]

theorem radarState_range_ne_zero (b : ℝ) :
    (radarState b).x_ 0 ^ 2 + (radarState b).x_ 1 ^ 2 ≠ 0 := by
  rw [radarState_range]
  exact one_ne_zero

/-! ## Covariance algebra of the update -/

section covariance
variable [Field α]

/-- The Joseph form of the updated covariance: with `K = P·Hᵗ·S⁻¹` and `S = H·P·Hᵗ + R`,
`(I − K·H)·P = (I − K·H)·P·(I − K·H)ᵗ + K·R·Kᵗ`. -/
theorem joseph_form (P : Matrix (Fin n) (Fin n) α) (H : Matrix (Fin m) (Fin n) α)
    (R Sinv : Matrix (Fin m) (Fin m) α) (hS : Sinv * (H * P * Hᵀ + R) = 1) :
    (1 - (P * Hᵀ * Sinv) * H) * P =
      (1 - (P * Hᵀ * Sinv) * H) * P * (1 - (P * Hᵀ * Sinv) * H)ᵀ +
        (P * Hᵀ * Sinv) * R * (P * Hᵀ * Sinv)ᵀ := by
  set K := P * Hᵀ * Sinv with hK
  have hKS : K * (H * P * Hᵀ + R) = P * Hᵀ := by
    rw [hK, Matrix.mul_assoc, hS, Matrix.mul_one]
  have hKR : (1 - K * H) * P * Hᵀ = K * R := by
    rw [Matrix.mul_add] at hKS
    rw [Matrix.sub_mul, Matrix.sub_mul, Matrix.one_mul, Matrix.mul_assoc (K * H),
      Matrix.mul_assoc K H, ← Matrix.mul_assoc H]
    rw [← hKS]
    abel
  rw [Matrix.transpose_sub, Matrix.transpose_one, Matrix.transpose_mul, Matrix.mul_sub,
    Matrix.mul_one, ← Matrix.mul_assoc ((1 - K * H) * P), hKR]
  abel

/-- The decrease of the covariance: `P − (I − K·H)·P = (H·P)ᵗ·S⁻¹·(H·P)` for symmetric `P`. -/
theorem covariance_decrease (P : Matrix (Fin n) (Fin n) α) (H : Matrix (Fin m) (Fin n) α)
    (Sinv : Matrix (Fin m) (Fin m) α) (hP : Pᵀ = P) :
    P - (1 - (P * Hᵀ * Sinv) * H) * P = (H * P)ᵀ * Sinv * (H * P) := by
  rw [Matrix.sub_mul, Matrix.one_mul, sub_sub_cancel, Matrix.transpose_mul, hP,
    Matrix.mul_assoc (P * Hᵀ * Sinv)]

end covariance

section real

theorem innovation_covariance_posDef (P : Matrix (Fin n) (Fin n) ℝ) (H : Matrix (Fin m) (Fin n) ℝ)
    (R : Matrix (Fin m) (Fin m) ℝ) (hP : P.PosSemidef) (hR : R.PosDef) :
    (H * P * Hᵀ + R).PosDef := by
  have h := hP.mul_mul_conjTranspose_same H
  rw [Matrix.conjTranspose_eq_transpose_of_trivial] at h
  exact Matrix.PosDef.posSemidef_add h hR

theorem innovation_covariance_inv (P : Matrix (Fin n) (Fin n) ℝ) (H : Matrix (Fin m) (Fin n) ℝ)
    (R : Matrix (Fin m) (Fin m) ℝ) (hP : P.PosSemidef) (hR : R.PosDef) :
    (H * P * Hᵀ + R) * (H * P * Hᵀ + R)⁻¹ = 1 ∧ (H * P * Hᵀ + R)⁻¹ * (H * P * Hᵀ + R) = 1 := by
  have hu : IsUnit (H * P * Hᵀ + R).det :=
    (innovation_covariance_posDef P H R hP hR).det_pos.ne'.isUnit
  exact ⟨Matrix.mul_nonsing_inv _ hu, Matrix.nonsing_inv_mul _ hu⟩

theorem posSemidef_transpose_eq {A : Matrix (Fin n) (Fin n) ℝ} (hA : A.PosSemidef) : Aᵀ = A := by
  have h := hA.isHermitian.eq
  rwa [Matrix.conjTranspose_eq_transpose_of_trivial] at h

theorem updated_covariance_posSemidef (P : Matrix (Fin n) (Fin n) ℝ)
    (H : Matrix (Fin m) (Fin n) ℝ) (R : Matrix (Fin m) (Fin m) ℝ) (hP : P.PosSemidef)
    (hR : R.PosDef) :
    ((1 - (P * Hᵀ * (H * P * Hᵀ + R)⁻¹) * H) * P).PosSemidef := by
  rw [joseph_form P H R _ (innovation_covariance_inv P H R hP hR).2]
  have h1 := hP.mul_mul_conjTranspose_same (1 - (P * Hᵀ * (H * P * Hᵀ + R)⁻¹) * H)
  have h2 := hR.posSemidef.mul_mul_conjTranspose_same (P * Hᵀ * (H * P * Hᵀ + R)⁻¹)
  rw [Matrix.conjTranspose_eq_transpose_of_trivial] at h1 h2
  exact h1.add h2

theorem covariance_decrease_posSemidef (P : Matrix (Fin n) (Fin n) ℝ)
    (H : Matrix (Fin m) (Fin n) ℝ) (R : Matrix (Fin m) (Fin m) ℝ) (hP : P.PosSemidef)
    (hR : R.PosDef) :
    (P - (1 - (P * Hᵀ * (H * P * Hᵀ + R)⁻¹) * H) * P).PosSemidef := by
  rw [covariance_decrease P H _ (posSemidef_transpose_eq hP)]
  have h := (innovation_covariance_posDef P H R hP hR).inv.posSemidef.conjTranspose_mul_mul_same
    (H * P)
  rwa [Matrix.conjTranspose_eq_transpose_of_trivial] at h

end real

/-! ## C1: the linear update -/

/-- C1. For every state and every measurement `z`, with `S = H·P·Hᵗ + R` and `S⁻¹` an
inverse of `S`, `Update z` produces the state `(x + K·(z − H·x), (I − K·H)·P, F, H, R, Q)`
where `K = P·Hᵗ·S⁻¹`. -/
theorem Update_spec [Field α] [DecidableEq α] (s : KalmanFilter n m α) (z : Fin m → α)
    (Sinv : Matrix (Fin m) (Fin m) α) (hS : (s.H_ * s.P_ * s.H_ᵀ + s.R_) * Sinv = 1) :
    Update s z = some
      { x_ := s.x_ + (s.P_ * s.H_ᵀ * Sinv) *ᵥ (z - s.H_ *ᵥ s.x_)
        P_ := (1 - (s.P_ * s.H_ᵀ * Sinv) * s.H_) * s.P_
        F_ := s.F_
        H_ := s.H_
        R_ := s.R_
        Q_ := s.Q_ } :=
  Update_of_inverse s z Sinv hS

theorem exampleState_S_inv :
    (exampleState.H_ * exampleState.P_ * exampleState.H_ᵀ + exampleState.R_) * exampleSinv = 1 := by
  ext i j
  fin_cases i; fin_cases j
  simp [exampleState, exampleSinv, Matrix.mul_apply, Fin.sum_univ_succ, Matrix.vecHead, Matrix.vecTail]
  norm_num

/-- C1 at `exampleState` with the measurement `3`: `S = 2`, the gain is `(1/2, 0)`, the
first state component moves half the way from `1` to `3` and its variance is halved. -/
theorem Update_spec_witness :
    (exampleState.H_ * exampleState.P_ * exampleState.H_ᵀ + exampleState.R_) * exampleSinv = 1 ∧
    Update exampleState ![3] = some
      { x_ := ![2, 2]
        P_ := !![1 / 2, 0; 0, 1]
        F_ := exampleState.F_
        H_ := exampleState.H_
        R_ := exampleState.R_
        Q_ := exampleState.Q_ } := by
  refine ⟨exampleState_S_inv,
    (Update_spec exampleState ![3] exampleSinv exampleState_S_inv).trans ?_⟩
  congr 2
  · ext i
    fin_cases i <;>
      (simp [exampleState, exampleSinv, Matrix.mul_apply, Matrix.mulVec, Matrix.dotProduct,
        Fin.sum_univ_succ, Matrix.vecHead, Matrix.vecTail]; try norm_num)
  · ext i j
    fin_cases i <;> fin_cases j <;>
      (simp [exampleState, exampleSinv, Matrix.mul_apply, Matrix.sub_apply, Matrix.one_fin_two,
        Fin.sum_univ_succ, Matrix.vecHead, Matrix.vecTail]; try norm_num)

/-! ## C2: the prediction -/

/-- C2. `Predict` produces the state `(F·x, F·P·Fᵗ + Q, F, H, R, Q)`: the covariance is
computed from the covariance before the call, and `F`, `H`, `R`, `Q` are unchanged. -/
theorem Predict_spec [Field α] (s : KalmanFilter n m α) :
    Predict s =
      { x_ := s.F_ *ᵥ s.x_
        P_ := s.F_ * s.P_ * s.F_ᵀ + s.Q_
        F_ := s.F_
        H_ := s.H_
        R_ := s.R_
        Q_ := s.Q_ } :=
  rfl

/-! ## C3: the nonlinear update -/

/-- C3. For every state `x = (px, py, vx, vy)` with `px² + py² ≠ 0` and every measurement
`z`, with `h(x)` the result of `ProjectToMeasurmentSpace`, `S = H·P·Hᵗ + R` for the stored
`H` and `S⁻¹` an inverse of `S`, `UpdateEKF z` sets `x` to `x + K·(z − h(x))` and `P` to
`(I − K·H)·P` where `K = P·Hᵗ·S⁻¹`; the innovation is `z − h(x)`, not `z − H·x`. -/
theorem UpdateEKF_spec (s : KalmanFilter 4 3 ℝ) (z : Fin 3 → ℝ)
    (Sinv : Matrix (Fin 3) (Fin 3) ℝ) (hrange : s.x_ 0 ^ 2 + s.x_ 1 ^ 2 ≠ 0)
    (hS : (s.H_ * s.P_ * s.H_ᵀ + s.R_) * Sinv = 1) :
    ∃ hx : Fin 3 → ℝ, ProjectToMeasurmentSpace s = some (hx, s) ∧
      UpdateEKF s z = some
        { x_ := s.x_ + (s.P_ * s.H_ᵀ * Sinv) *ᵥ (z - hx)
          P_ := (1 - (s.P_ * s.H_ᵀ * Sinv) * s.H_) * s.P_
          F_ := s.F_
          H_ := s.H_
          R_ := s.R_
          Q_ := s.Q_ } := by
  refine ⟨_, Project_of_range_ne_zero s hrange, ?_⟩
  have h := (inverse_eq_some_iff _ _).2 hS
  simp only [UpdateEKF, UpdateEKF_y_of_range_ne_zero s z hrange, h]

theorem trackState_range_ne_zero : trackState.x_ 0 ^ 2 + trackState.x_ 1 ^ 2 ≠ 0 := by
  simp [trackState]
  norm_num

theorem trackState_S_inv :
    (trackState.H_ * trackState.P_ * trackState.H_ᵀ + trackState.R_) * trackSinv = 1 := by
  have hH : trackState.H_ * trackState.P_ * trackState.H_ᵀ = 1 := by
    ext i j
    fin_cases i <;> fin_cases j <;>
      simp [trackState, Matrix.mul_apply, Fin.sum_univ_succ, Matrix.one_apply]
  rw [hH]
  simp only [trackState, trackSinv]
  rw [Matrix.mul_smul, Matrix.mul_one, smul_add, ← add_smul]
  norm_num

/-- C3 at `trackState`, position `(3, 4)`, with the measurement `(5, 1, 2)`. -/
theorem UpdateEKF_spec_witness :
    trackState.x_ 0 ^ 2 + trackState.x_ 1 ^ 2 ≠ 0 ∧
    (trackState.H_ * trackState.P_ * trackState.H_ᵀ + trackState.R_) * trackSinv = 1 ∧
    ∃ hx : Fin 3 → ℝ, ProjectToMeasurmentSpace trackState = some (hx, trackState) ∧
      UpdateEKF trackState ![5, 1, 2] = some
        { x_ := trackState.x_ + (trackState.P_ * trackState.H_ᵀ * trackSinv) *ᵥ (![5, 1, 2] - hx)
          P_ := (1 - (trackState.P_ * trackState.H_ᵀ * trackSinv) * trackState.H_) *
            trackState.P_
          F_ := trackState.F_
          H_ := trackState.H_
          R_ := trackState.R_
          Q_ := trackState.Q_ } :=
  ⟨trackState_range_ne_zero, trackState_S_inv,
    UpdateEKF_spec trackState ![5, 1, 2] trackSinv trackState_range_ne_zero trackState_S_inv⟩

/-! ## C4: the projection -/

/-- C4. For every state `x = (px, py, vx, vy)` with `px² + py² ≠ 0`,
`ProjectToMeasurmentSpace` returns `(sqrt(px² + py²), atan2(py, px),
(px·vx + py·vy) / sqrt(px² + py²))` over the real numbers, `atan2(py, px)` being the
argument of the point `(px, py)`, and leaves the state as it was. -/
theorem ProjectToMeasurmentSpace_spec (s : KalmanFilter 4 3 ℝ)
    (hrange : s.x_ 0 ^ 2 + s.x_ 1 ^ 2 ≠ 0) :
    ProjectToMeasurmentSpace s = some
      (![Real.sqrt (s.x_ 0 ^ 2 + s.x_ 1 ^ 2), Complex.arg ⟨s.x_ 0, s.x_ 1⟩,
          (s.x_ 0 * s.x_ 2 + s.x_ 1 * s.x_ 3) / Real.sqrt (s.x_ 0 ^ 2 + s.x_ 1 ^ 2)], s) :=
  Project_of_range_ne_zero s hrange


/-- C4 at `trackState`, position `(3, 4)` and velocity `(1, 2)`. -/
theorem ProjectToMeasurmentSpace_spec_witness :
    trackState.x_ 0 ^ 2 + trackState.x_ 1 ^ 2 ≠ 0 ∧
    ProjectToMeasurmentSpace trackState = some
      (![Real.sqrt (trackState.x_ 0 ^ 2 + trackState.x_ 1 ^ 2),
          Complex.arg ⟨trackState.x_ 0, trackState.x_ 1⟩,
          (trackState.x_ 0 * trackState.x_ 2 + trackState.x_ 1 * trackState.x_ 3) /
            Real.sqrt (trackState.x_ 0 ^ 2 + trackState.x_ 1 ^ 2)], trackState) :=
  ⟨trackState_range_ne_zero, ProjectToMeasurmentSpace_spec trackState trackState_range_ne_zero⟩

/-! ## C5: the bearing component of the innovation -/

theorem radarState_bearing_three :
    Complex.arg ⟨(radarState 3).x_ 0, (radarState 3).x_ 1⟩ = 3 := by
  have h3 : (3 : ℝ) ∈ Set.Ioc (-Real.pi) Real.pi :=
    ⟨by linarith [Real.pi_gt_three], Real.pi_gt_three.le⟩
  have e : (⟨(radarState 3).x_ 0, (radarState 3).x_ 1⟩ : ℂ) =
      Complex.cos (3 : ℝ) + Complex.sin (3 : ℝ) * Complex.I := by
    rw [← Complex.ofReal_cos, ← Complex.ofReal_sin, ← Complex.mk_eq_add_mul_I]
    simp [radarState]
  rw [e]
  exact Complex.arg_cos_add_sin_mul_I h3

/-- C5, counterexample. The state `radarState 3` has range `1` and bearing `+3.0`; for the
measurement `(1, −3.0, 0)` the innovation of `UpdateEKF` has the bearing component `−6.0`,
which is not in `(−π, π]`. -/
theorem UpdateEKF_y_bearing_unwrapped :
    (radarState 3).x_ 0 ^ 2 + (radarState 3).x_ 1 ^ 2 ≠ 0 ∧
    Complex.arg ⟨(radarState 3).x_ 0, (radarState 3).x_ 1⟩ = 3 ∧
    ∃ y : Fin 3 → ℝ, UpdateEKF_y (radarState 3) ![1, -3, 0] = some (y, radarState 3) ∧
      y 1 = -6 ∧ y 1 ∉ Set.Ioc (-Real.pi) Real.pi := by
  refine ⟨radarState_range_ne_zero 3, radarState_bearing_three, _,
    UpdateEKF_y_of_range_ne_zero _ _ (radarState_range_ne_zero 3), ?_, ?_⟩
  · simp [radarState_bearing_three]
    norm_num
  · simp only [Pi.sub_apply, Matrix.cons_val_one, Matrix.head_cons, radarState_bearing_three,
      Set.mem_Ioc, not_and, not_le]
    intro h
    linarith [Real.pi_lt_four]

/-- C5, amended. For every state with non-zero range and every measurement `z`, the
bearing component of the innovation `y` of `UpdateEKF` is the plain difference
`z₁ − atan2(py, px)`, without normalization, and this `y` is the one that corrects the
state (`x ← x + K·y`); for a state of bearing `+3.0` and a measured bearing `−3.0` it is
`−6.0`. -/
theorem UpdateEKF_y_bearing (s : KalmanFilter 4 3 ℝ) (z : Fin 3 → ℝ)
    (hrange : s.x_ 0 ^ 2 + s.x_ 1 ^ 2 ≠ 0) :
    ∃ y : Fin 3 → ℝ, UpdateEKF_y s z = some (y, s) ∧
      y 1 = z 1 - Complex.arg ⟨s.x_ 0, s.x_ 1⟩ ∧
      (Complex.arg ⟨s.x_ 0, s.x_ 1⟩ = 3 → z 1 = -3 → y 1 = -6) ∧
      ∀ Sinv : Matrix (Fin 3) (Fin 3) ℝ, (s.H_ * s.P_ * s.H_ᵀ + s.R_) * Sinv = 1 →
        ∃ s' : KalmanFilter 4 3 ℝ, UpdateEKF s z = some s' ∧
          s'.x_ = s.x_ + (s.P_ * s.H_ᵀ * Sinv) *ᵥ y := by
  refine ⟨_, UpdateEKF_y_of_range_ne_zero s z hrange, ?_, ?_, ?_⟩
  · simp
  · intro ha hz
    simp only [Pi.sub_apply, Matrix.cons_val_one, Matrix.head_cons, ha, hz]
    norm_num
  · intro Sinv hS
    have h := (inverse_eq_some_iff _ _).2 hS
    refine ⟨{ s with
      x_ := s.x_ + (s.P_ * s.H_ᵀ * Sinv) *ᵥ
        (z - ![Real.sqrt (s.x_ 0 ^ 2 + s.x_ 1 ^ 2), Complex.arg ⟨s.x_ 0, s.x_ 1⟩,
          (s.x_ 0 * s.x_ 2 + s.x_ 1 * s.x_ 3) / Real.sqrt (s.x_ 0 ^ 2 + s.x_ 1 ^ 2)])
      P_ := (1 - (s.P_ * s.H_ᵀ * Sinv) * s.H_) * s.P_ }, ?_, rfl⟩
    simp only [UpdateEKF, UpdateEKF_y_of_range_ne_zero s z hrange, h]

/-- C5, amended, at `radarState 3` and the measurement `(1, −3.0, 0)`. -/
theorem UpdateEKF_y_bearing_witness :
    (radarState 3).x_ 0 ^ 2 + (radarState 3).x_ 1 ^ 2 ≠ 0 ∧
    ∃ y : Fin 3 → ℝ, UpdateEKF_y (radarState 3) ![1, -3, 0] = some (y, radarState 3) ∧
      y 1 = (![1, -3, 0] : Fin 3 → ℝ) 1 -
        Complex.arg ⟨(radarState 3).x_ 0, (radarState 3).x_ 1⟩ ∧
      (Complex.arg ⟨(radarState 3).x_ 0, (radarState 3).x_ 1⟩ = 3 →
        (![1, -3, 0] : Fin 3 → ℝ) 1 = -3 → y 1 = -6) ∧
      ∀ Sinv : Matrix (Fin 3) (Fin 3) ℝ,
        ((radarState 3).H_ * (radarState 3).P_ * (radarState 3).H_ᵀ + (radarState 3).R_) *
            Sinv = 1 →
        ∃ s' : KalmanFilter 4 3 ℝ, UpdateEKF (radarState 3) ![1, -3, 0] = some s' ∧
          s'.x_ = (radarState 3).x_ +
            ((radarState 3).P_ * (radarState 3).H_ᵀ * Sinv) *ᵥ y :=
  ⟨radarState_range_ne_zero 3,
    UpdateEKF_y_bearing (radarState 3) ![1, -3, 0] (radarState_range_ne_zero 3)⟩


/-! ## C6: singular innovation covariance -/

theorem singularState_det :
    (singularState.H_ * singularState.P_ * singularState.H_ᵀ + singularState.R_).det = 0 := by
  rw [Matrix.det_unique]
  simp [singularState, exampleState, Matrix.mul_apply, Fin.sum_univ_succ, Matrix.vecHead,
    Matrix.vecTail]

/-- C6, counterexample. At `singularState` (`R = 0`, `H·P·Hᵗ = 0`) the innovation covariance
is singular and `Update` yields no state at all, in particular not one with `x` and `P` as
they were before the call. -/
theorem Update_singular_not_skipped :
    (singularState.H_ * singularState.P_ * singularState.H_ᵀ + singularState.R_).det = 0 ∧
    Update singularState ![3] = none ∧
    ¬ ∃ s' : KalmanFilter 2 1 ℚ, Update singularState ![3] = some s' ∧
      s'.x_ = singularState.x_ ∧ s'.P_ = singularState.P_ := by
  have h := Update_of_det_eq_zero singularState ![3] singularState_det
  refine ⟨singularState_det, h, ?_⟩
  rintro ⟨s', hs, -⟩
  rw [h] at hs
  exact Option.noConfusion hs

/-- C6, amended. For every state and measurement `z` for which `S = H·P·Hᵗ + R` is singular,
`Update` has no guard for the inversion: the inverse does not exist and the call yields no
finite state, so `x` and `P` are not kept. -/
theorem Update_singular [Field α] [DecidableEq α] (s : KalmanFilter n m α) (z : Fin m → α)
    (hS : (s.H_ * s.P_ * s.H_ᵀ + s.R_).det = 0) :
    inverse (s.H_ * s.P_ * s.H_ᵀ + s.R_) = none ∧ Update s z = none :=
  ⟨(inverse_eq_none_iff _).2 hS, Update_of_det_eq_zero s z hS⟩

/-- C6, amended, at `singularState` with the measurement `3`. -/
theorem Update_singular_witness :
    (singularState.H_ * singularState.P_ * singularState.H_ᵀ + singularState.R_).det = 0 ∧
    (inverse (singularState.H_ * singularState.P_ * singularState.H_ᵀ + singularState.R_)
        = none ∧
      Update singularState ![3] = none) :=
  ⟨singularState_det, Update_singular singularState ![3] singularState_det⟩

/-! ## C7: range zero -/

theorem Project_of_origin (s : KalmanFilter 4 3 ℝ) (h0 : s.x_ 0 = 0) (h1 : s.x_ 1 = 0) :
    ProjectToMeasurmentSpace s = none := by
  simp [ProjectToMeasurmentSpace, CMath.sqrt, h0, h1]

theorem UpdateEKF_of_origin (s : KalmanFilter 4 3 ℝ) (z : Fin 3 → ℝ) (h0 : s.x_ 0 = 0)
    (h1 : s.x_ 1 = 0) : UpdateEKF s z = none := by
  simp only [UpdateEKF, UpdateEKF_y, Project_of_origin s h0 h1]

/-- C7, counterexample. At the state `(0, 0, 1, 2)` the projection divides by the zero
range and `UpdateEKF` yields no state at all, in particular not one with `x` and `P` as they
were before the call. -/
theorem UpdateEKF_origin_not_skipped :
    originState.x_ = ![0, 0, 1, 2] ∧
    UpdateEKF originState ![1, 0, 0] = none ∧
    ¬ ∃ s' : KalmanFilter 4 3 ℝ, UpdateEKF originState ![1, 0, 0] = some s' ∧
      s'.x_ = originState.x_ ∧ s'.P_ = originState.P_ := by
  have h := UpdateEKF_of_origin originState ![1, 0, 0] rfl rfl
  refine ⟨rfl, h, ?_⟩
  rintro ⟨s', hs, -⟩
  rw [h] at hs
  exact Option.noConfusion hs

/-- C7, amended. For every state `x = (0, 0, vx, vy)` and every measurement `z`, `UpdateEKF`
has no guard for the range: `ProjectToMeasurmentSpace` divides by the zero range, which has
no value, and the call yields no finite state, so `x` and `P` are not kept. -/
theorem UpdateEKF_range_zero (s : KalmanFilter 4 3 ℝ) (z : Fin 3 → ℝ) (h0 : s.x_ 0 = 0)
    (h1 : s.x_ 1 = 0) :
    ProjectToMeasurmentSpace s = none ∧ UpdateEKF s z = none :=
  ⟨Project_of_origin s h0 h1, UpdateEKF_of_origin s z h0 h1⟩

/-- C7, amended, at the state `(0, 0, 1, 2)`. -/
theorem UpdateEKF_range_zero_witness :
    originState.x_ 0 = 0 ∧ originState.x_ 1 = 0 ∧
    (ProjectToMeasurmentSpace originState = none ∧
      UpdateEKF originState ![1, 0, 0] = none) :=
  ⟨rfl, rfl, UpdateEKF_range_zero originState ![1, 0, 0] rfl rfl⟩

/-! ## C8: symmetry under prediction -/

/-- C8. For symmetric `P` and symmetric `Q`, and any square `F`, the covariance after
`Predict` is symmetric. -/
theorem Predict_symm [Field α] (s : KalmanFilter n m α) (hP : s.P_.IsSymm) (hQ : s.Q_.IsSymm) :
    (Predict s).P_.IsSymm := by
  show (s.F_ * s.P_ * s.F_ᵀ + s.Q_)ᵀ = s.F_ * s.P_ * s.F_ᵀ + s.Q_
  rw [Matrix.transpose_add, Matrix.transpose_mul, Matrix.transpose_mul,
    Matrix.transpose_transpose, hP.eq, hQ.eq, Matrix.mul_assoc]

theorem exampleState_P_symm : exampleState.P_.IsSymm := by
  ext i j
  fin_cases i <;> fin_cases j <;> simp [exampleState]

theorem exampleState_Q_symm : exampleState.Q_.IsSymm := by
  ext i j
  fin_cases i <;> fin_cases j <;> simp [exampleState]

/-- C8 at `exampleState`, whose `F` is not symmetric. -/
theorem Predict_symm_witness :
    exampleState.P_.IsSymm ∧ exampleState.Q_.IsSymm ∧ (Predict exampleState).P_.IsSymm :=
  ⟨exampleState_P_symm, exampleState_Q_symm,
    Predict_symm exampleState exampleState_P_symm exampleState_Q_symm⟩



/-! ## C9: the covariance after the update is symmetric positive semi-definite -/

/-- C9. For symmetric positive semi-definite `P` and symmetric positive definite `R`, and
every measurement `z`, `Update z` yields a state, and its covariance `(I − K·H)·P` is
symmetric and positive semi-definite. -/
theorem Update_P_posSemidef (s : KalmanFilter n m ℝ) (z : Fin m → ℝ) (hP : s.P_.PosSemidef)
    (hR : s.R_.PosDef) :
    ∃ s' : KalmanFilter n m ℝ, Update s z = some s' ∧
      s'.P_ = (1 - (s.P_ * s.H_ᵀ * (s.H_ * s.P_ * s.H_ᵀ + s.R_)⁻¹) * s.H_) * s.P_ ∧
      s'.P_.IsSymm ∧ s'.P_.PosSemidef := by
  have hpsd := updated_covariance_posSemidef s.P_ s.H_ s.R_ hP hR
  exact ⟨_, Update_of_inverse s z _ (innovation_covariance_inv s.P_ s.H_ s.R_ hP hR).1, rfl,
    posSemidef_transpose_eq hpsd, hpsd⟩

/-- C9 at `unitState` with the measurement `3`. -/
theorem Update_P_posSemidef_witness :
    unitState.P_.PosSemidef ∧ unitState.R_.PosDef ∧
    ∃ s' : KalmanFilter 2 1 ℝ, Update unitState ![3] = some s' ∧
      s'.P_ = (1 - (unitState.P_ * unitState.H_ᵀ *
        (unitState.H_ * unitState.P_ * unitState.H_ᵀ + unitState.R_)⁻¹) * unitState.H_) *
          unitState.P_ ∧
      s'.P_.IsSymm ∧ s'.P_.PosSemidef :=
  ⟨Matrix.PosSemidef.one, Matrix.PosDef.one,
    Update_P_posSemidef unitState ![3] Matrix.PosSemidef.one Matrix.PosDef.one⟩

/-! ## C10: the covariance shrinks in the Loewner order -/

/-- C10. For symmetric positive semi-definite `P` and symmetric positive definite `R`, and
every measurement `z`, `Update z` yields a state, and the covariance before the call minus
the covariance after it is positive semi-definite. -/
theorem Update_P_loewner (s : KalmanFilter n m ℝ) (z : Fin m → ℝ) (hP : s.P_.PosSemidef)
    (hR : s.R_.PosDef) :
    ∃ s' : KalmanFilter n m ℝ, Update s z = some s' ∧ (s.P_ - s'.P_).PosSemidef :=
  ⟨_, Update_of_inverse s z _ (innovation_covariance_inv s.P_ s.H_ s.R_ hP hR).1,
    covariance_decrease_posSemidef s.P_ s.H_ s.R_ hP hR⟩

/-- C10 at `unitState` with the measurement `3`. -/
theorem Update_P_loewner_witness :
    unitState.P_.PosSemidef ∧ unitState.R_.PosDef ∧
    ∃ s' : KalmanFilter 2 1 ℝ, Update unitState ![3] = some s' ∧
      (unitState.P_ - s'.P_).PosSemidef :=
  ⟨Matrix.PosSemidef.one, Matrix.PosDef.one,
    Update_P_loewner unitState ![3] Matrix.PosSemidef.one Matrix.PosDef.one⟩


/-! ## Traces of positive semi-definite matrices -/

section trace

theorem posSemidef_diag_nonneg {A : Matrix (Fin n) (Fin n) ℝ} (hA : A.PosSemidef) (i : Fin n) :
    0 ≤ A i i := by
  have h := hA.2 (Pi.single i 1)
  simpa [Matrix.mulVec, Matrix.dotProduct, Pi.single_apply] using h

theorem posSemidef_trace_nonneg {A : Matrix (Fin n) (Fin n) ℝ} (hA : A.PosSemidef) :
    0 ≤ A.trace :=
  Finset.sum_nonneg fun i _ => posSemidef_diag_nonneg hA i

/-- The trace of `Bᵗ·A·B` is positive for positive definite `A` and `B ≠ 0`. -/
theorem trace_transpose_mul_mul_pos {A : Matrix (Fin m) (Fin m) ℝ} (hA : A.PosDef)
    (B : Matrix (Fin m) (Fin n) ℝ) (hB : B ≠ 0) : 0 < (Bᵀ * A * B).trace := by
  have hpsd : (Bᵀ * A * B).PosSemidef := by
    have h := hA.posSemidef.conjTranspose_mul_mul_same B
    rwa [Matrix.conjTranspose_eq_transpose_of_trivial] at h
  obtain ⟨i, j, hij⟩ : ∃ i j, B i j ≠ 0 := by
    by_contra hcon
    push_neg at hcon
    exact hB (by ext i j; exact hcon i j)
  have hv : B *ᵥ Pi.single j 1 ≠ 0 := by
    intro h0
    have := congrFun h0 i
    simp [Matrix.mulVec, Matrix.dotProduct, Pi.single_apply] at this
    exact hij this
  have hpos : 0 < (Bᵀ * A * B) j j := by
    have h := hA.2 (B *ᵥ Pi.single j 1) hv
    rw [Matrix.star_mulVec, Matrix.dotProduct_mulVec, Matrix.vecMul_vecMul,
      Matrix.conjTranspose_eq_transpose_of_trivial, ← Matrix.dotProduct_mulVec,
      Matrix.mulVec_mulVec] at h
    simpa [Matrix.mulVec, Matrix.dotProduct, Pi.single_apply] using h
  exact Finset.sum_pos' (fun k _ => posSemidef_diag_nonneg hpsd k) ⟨j, Finset.mem_univ j, hpos⟩

/-- The trace of a product of two positive semi-definite matrices is not negative. -/
theorem trace_mul_posSemidef_nonneg {A M : Matrix (Fin n) (Fin n) ℝ} (hA : A.PosSemidef)
    (hM : M.PosSemidef) : 0 ≤ (A * M).trace := by
  obtain ⟨B, rfl⟩ := Matrix.posSemidef_iff_eq_transpose_mul_self.mp hA
  rw [Matrix.mul_assoc, Matrix.trace_mul_comm]
  exact posSemidef_trace_nonneg (hM.mul_mul_conjTranspose_same B)

end trace

/-! ## C11: the trace decreases under an informative update -/

/-- C11. For symmetric positive semi-definite `P`, symmetric positive definite `R` and
`H·P ≠ 0`, and every measurement `z`, `Update z` yields a state whose covariance has a
trace strictly less than the trace of the covariance before the call. -/
theorem Update_trace_lt (s : KalmanFilter n m ℝ) (z : Fin m → ℝ) (hP : s.P_.PosSemidef)
    (hR : s.R_.PosDef) (hHP : s.H_ * s.P_ ≠ 0) :
    ∃ s' : KalmanFilter n m ℝ, Update s z = some s' ∧ s'.P_.trace < s.P_.trace := by
  refine ⟨_, Update_of_inverse s z _ (innovation_covariance_inv s.P_ s.H_ s.R_ hP hR).1, ?_⟩
  have h := trace_transpose_mul_mul_pos (innovation_covariance_posDef s.P_ s.H_ s.R_ hP hR).inv
    (s.H_ * s.P_) hHP
  rw [← covariance_decrease s.P_ s.H_ _ (posSemidef_transpose_eq hP), Matrix.trace_sub] at h
  exact sub_pos.1 h

theorem unitState_HP_ne_zero : unitState.H_ * unitState.P_ ≠ 0 := by
  intro h
  have := congrFun (congrFun h 0) 0
  simp [unitState, Matrix.mul_apply, Fin.sum_univ_succ] at this

/-- C11 at `unitState` with the measurement `3`. -/
theorem Update_trace_lt_witness :
    unitState.P_.PosSemidef ∧ unitState.R_.PosDef ∧ unitState.H_ * unitState.P_ ≠ 0 ∧
    ∃ s' : KalmanFilter 2 1 ℝ, Update unitState ![3] = some s' ∧
      s'.P_.trace < unitState.P_.trace :=
  ⟨Matrix.PosSemidef.one, Matrix.PosDef.one, unitState_HP_ne_zero,
    Update_trace_lt unitState ![3] Matrix.PosSemidef.one Matrix.PosDef.one unitState_HP_ne_zero⟩


/-! ## C12: the trace under prediction -/

theorem anticorrelatedState_P_posSemidef : anticorrelatedState.P_.PosSemidef := by
  have h := Matrix.posSemidef_conjTranspose_mul_self anticorrelatedRoot
  have e : anticorrelatedRootᴴ * anticorrelatedRoot = anticorrelatedState.P_ := by
    ext i j
    fin_cases i <;> fin_cases j <;>
      simp [anticorrelatedState, anticorrelatedRoot, Matrix.mul_apply,
        Matrix.conjTranspose_apply]
  rwa [e] at h

theorem anticorrelatedState_Predict_P :
    (Predict anticorrelatedState).P_ = !![0, 0; 0, 1] := by
  show anticorrelatedState.F_ * anticorrelatedState.P_ * anticorrelatedState.F_ᵀ +
    anticorrelatedState.Q_ = !![0, 0; 0, 1]
  ext i j
  fin_cases i <;> fin_cases j <;>
    simp [anticorrelatedState, Matrix.mul_apply, Fin.sum_univ_succ, Matrix.vecHead,
      Matrix.vecTail]

/-- C12, counterexample. At `anticorrelatedState` (`P` symmetric positive semi-definite,
`Q = 0`, constant-velocity `F`) the trace of the covariance is `2` before `Predict` and `1`
after it. -/
theorem Predict_trace_decreases :
    anticorrelatedState.Q_.PosSemidef ∧ anticorrelatedState.P_.PosSemidef ∧
    anticorrelatedState.P_.trace = 2 ∧ (Predict anticorrelatedState).P_.trace = 1 ∧
    ¬ anticorrelatedState.P_.trace ≤ (Predict anticorrelatedState).P_.trace := by
  have h2 : anticorrelatedState.P_.trace = 2 := by
    simp [anticorrelatedState, Matrix.trace, Fin.sum_univ_succ]
    norm_num
  have h1 : (Predict anticorrelatedState).P_.trace = 1 := by
    rw [anticorrelatedState_Predict_P]
    simp [Matrix.trace, Fin.sum_univ_succ]
  refine ⟨Matrix.PosSemidef.zero, anticorrelatedState_P_posSemidef, h2, h1, ?_⟩
  rw [h1, h2]
  norm_num

/-- C12, amended. For positive semi-definite `Q`, the trace of the covariance after
`Predict` is at least the trace of the propagated covariance `F·P·Fᵗ`; it is at least the
trace of the covariance before the call when in addition `P` is positive semi-definite and
`FᵗF − I` is positive semi-definite (`F` does not contract, as for `F = I`). -/
theorem Predict_trace_ge (s : KalmanFilter n m ℝ) (hQ : s.Q_.PosSemidef) :
    (s.F_ * s.P_ * s.F_ᵀ).trace ≤ (Predict s).P_.trace ∧
    (s.P_.PosSemidef → (s.F_ᵀ * s.F_ - 1).PosSemidef →
      s.P_.trace ≤ (Predict s).P_.trace) := by
  have hstep : (s.F_ * s.P_ * s.F_ᵀ).trace ≤ (Predict s).P_.trace := by
    show (s.F_ * s.P_ * s.F_ᵀ).trace ≤ (s.F_ * s.P_ * s.F_ᵀ + s.Q_).trace
    rw [Matrix.trace_add]
    linarith [posSemidef_trace_nonneg hQ]
  refine ⟨hstep, fun hP hF => le_trans ?_ hstep⟩
  have h := trace_mul_posSemidef_nonneg hP hF
  rw [Matrix.mul_sub, Matrix.mul_one, Matrix.trace_sub, ← Matrix.mul_assoc,
    Matrix.trace_mul_comm, ← Matrix.mul_assoc] at h
  linarith

theorem expandingState_F_expands :
    (expandingState.F_ᵀ * expandingState.F_ - 1).PosSemidef := by
  have e : expandingState.F_ᵀ * expandingState.F_ - 1 = !![3, 2; 2, 4] := by
    ext i j
    fin_cases i <;> fin_cases j <;>
      (simp [expandingState, Matrix.mul_apply, Fin.sum_univ_succ, Matrix.one_fin_two,
        Matrix.vecHead, Matrix.vecTail]; try norm_num)
  rw [e]
  refine ⟨?_, fun v => ?_⟩
  · ext i j
    fin_cases i <;> fin_cases j <;> simp [Matrix.conjTranspose_apply]
  · simp only [Matrix.dotProduct, Matrix.mulVec, Fin.sum_univ_two, Pi.star_apply, star_trivial,
      Matrix.of_apply, Matrix.cons_val_zero, Matrix.cons_val_one, Matrix.head_cons,
      Matrix.cons_val', Matrix.empty_val', Matrix.cons_val_fin_one, Matrix.vecHead]
    nlinarith [sq_nonneg (v 0 + 2 * v 1), sq_nonneg (v 0), sq_nonneg (v 1)]

theorem expandingState_traces :
    expandingState.P_.trace = 2 ∧
    (expandingState.F_ * expandingState.P_ * expandingState.F_ᵀ).trace = 9 ∧
    (Predict expandingState).P_.trace = 11 := by
  have h9 : (expandingState.F_ * expandingState.P_ * expandingState.F_ᵀ).trace = 9 := by
    simp [expandingState, Matrix.trace, Matrix.mul_apply, Fin.sum_univ_succ, Matrix.vecHead,
      Matrix.vecTail]
    norm_num
  have h2 : expandingState.P_.trace = 2 := by
    simp [expandingState, Matrix.trace, Fin.sum_univ_succ]
  have hQ : expandingState.Q_.trace = 2 := by
    simp [expandingState, Matrix.trace, Fin.sum_univ_succ]
  refine ⟨h2, h9, ?_⟩
  show (expandingState.F_ * expandingState.P_ * expandingState.F_ᵀ + expandingState.Q_).trace = 11
  rw [Matrix.trace_add, h9, hQ]
  norm_num

/-- C12, amended, at `expandingState` (`F = [[2,1],[0,2]]`, `P = Q = I`): the trace is `2`
before `Predict`, `9` for the propagated covariance `F·P·Fᵗ` and `11` after `Predict`. -/
theorem Predict_trace_ge_witness :
    expandingState.Q_.PosSemidef ∧ expandingState.P_.PosSemidef ∧
    (expandingState.F_ᵀ * expandingState.F_ - 1).PosSemidef ∧
    expandingState.P_.trace = 2 ∧
    (expandingState.F_ * expandingState.P_ * expandingState.F_ᵀ).trace = 9 ∧
    (Predict expandingState).P_.trace = 11 ∧
    (expandingState.F_ * expandingState.P_ * expandingState.F_ᵀ).trace ≤
      (Predict expandingState).P_.trace ∧
    expandingState.P_.trace ≤ (Predict expandingState).P_.trace :=
  ⟨Matrix.PosSemidef.one, Matrix.PosSemidef.one, expandingState_F_expands,
    expandingState_traces.1, expandingState_traces.2.1, expandingState_traces.2.2,
    (Predict_trace_ge expandingState Matrix.PosSemidef.one).1,
    (Predict_trace_ge expandingState Matrix.PosSemidef.one).2 Matrix.PosSemidef.one
      expandingState_F_expands⟩

/-! ## C13: the identity update -/

/-- C13. If `z` equals `H·x` then `Update z` leaves `x` unchanged, and if the range is not
zero and `z` equals `h(x)`, the result of `ProjectToMeasurmentSpace`, then `UpdateEKF z`
leaves `x` unchanged; in both cases `P` is replaced by `(I − K·H)·P`, where `K = P·Hᵗ·S⁻¹`
for an inverse `S⁻¹` of `S = H·P·Hᵗ + R`. -/
theorem identity_update [Field α] [DecidableEq α] (s : KalmanFilter n m α)
    (Sinv : Matrix (Fin m) (Fin m) α) (hS : (s.H_ * s.P_ * s.H_ᵀ + s.R_) * Sinv = 1)
    (t : KalmanFilter 4 3 ℝ) (Tinv : Matrix (Fin 3) (Fin 3) ℝ)
    (hrange : t.x_ 0 ^ 2 + t.x_ 1 ^ 2 ≠ 0)
    (hT : (t.H_ * t.P_ * t.H_ᵀ + t.R_) * Tinv = 1) :
    Update s (s.H_ *ᵥ s.x_) = some
      { x_ := s.x_
        P_ := (1 - (s.P_ * s.H_ᵀ * Sinv) * s.H_) * s.P_
        F_ := s.F_
        H_ := s.H_
        R_ := s.R_
        Q_ := s.Q_ } ∧
    ∃ hx : Fin 3 → ℝ, ProjectToMeasurmentSpace t = some (hx, t) ∧
      UpdateEKF t hx = some
        { x_ := t.x_
          P_ := (1 - (t.P_ * t.H_ᵀ * Tinv) * t.H_) * t.P_
          F_ := t.F_
          H_ := t.H_
          R_ := t.R_
          Q_ := t.Q_ } := by
  constructor
  · rw [Update_of_inverse s _ Sinv hS, sub_self, Matrix.mulVec_zero, add_zero]
  · refine ⟨_, Project_of_range_ne_zero t hrange, ?_⟩
    have h := (inverse_eq_some_iff _ _).2 hT
    simp only [UpdateEKF, UpdateEKF_y_of_range_ne_zero t _ hrange, h, sub_self,
      Matrix.mulVec_zero, add_zero]

/-- C13 at `exampleState` and `trackState`. -/
theorem identity_update_witness :
    (exampleState.H_ * exampleState.P_ * exampleState.H_ᵀ + exampleState.R_) * exampleSinv = 1 ∧
    trackState.x_ 0 ^ 2 + trackState.x_ 1 ^ 2 ≠ 0 ∧
    (trackState.H_ * trackState.P_ * trackState.H_ᵀ + trackState.R_) * trackSinv = 1 ∧
    Update exampleState (exampleState.H_ *ᵥ exampleState.x_) = some
      { x_ := exampleState.x_
        P_ := (1 - (exampleState.P_ * exampleState.H_ᵀ * exampleSinv) * exampleState.H_) *
          exampleState.P_
        F_ := exampleState.F_
        H_ := exampleState.H_
        R_ := exampleState.R_
        Q_ := exampleState.Q_ } ∧
    ∃ hx : Fin 3 → ℝ, ProjectToMeasurmentSpace trackState = some (hx, trackState) ∧
      UpdateEKF trackState hx = some
        { x_ := trackState.x_
          P_ := (1 - (trackState.P_ * trackState.H_ᵀ * trackSinv) * trackState.H_) *
            trackState.P_
          F_ := trackState.F_
          H_ := trackState.H_
          R_ := trackState.R_
          Q_ := trackState.Q_ } :=
  ⟨exampleState_S_inv, trackState_range_ne_zero, trackState_S_inv,
    identity_update exampleState exampleSinv exampleState_S_inv trackState trackSinv
      trackState_range_ne_zero trackState_S_inv⟩

/-! ## C14: repeated prediction -/

section iterate
variable [Field α]

theorem Predict_iterate_models (s : KalmanFilter n m α) (k : ℕ) :
    (Predict^[k] s).F_ = s.F_ ∧ (Predict^[k] s).H_ = s.H_ ∧ (Predict^[k] s).R_ = s.R_ ∧
      (Predict^[k] s).Q_ = s.Q_ := by
  induction k with
  | zero => exact ⟨rfl, rfl, rfl, rfl⟩
  | succ k ih =>
    rw [Function.iterate_succ_apply']
    exact ih

theorem Predict_iterate_P (s : KalmanFilter n m α) (hQ : s.Q_ = 0) (k : ℕ) :
    (Predict^[k] s).P_ = s.F_ ^ k * s.P_ * (s.F_ ^ k)ᵀ := by
  induction k with
  | zero => simp
  | succ k ih =>
    rw [Function.iterate_succ_apply']
    show (Predict^[k] s).F_ * (Predict^[k] s).P_ * (Predict^[k] s).F_ᵀ + (Predict^[k] s).Q_ = _
    rw [(Predict_iterate_models s k).1, (Predict_iterate_models s k).2.2.2, hQ, ih, add_zero,
      pow_succ', Matrix.transpose_mul]
    simp only [Matrix.mul_assoc]

theorem constantVelocity_mulVec (dt : α) (x : Fin 4 → α) :
    constantVelocity dt *ᵥ x = ![x 0 + dt * x 2, x 1 + dt * x 3, x 2, x 3] := by
  ext i
  fin_cases i <;>
    simp [constantVelocity, Matrix.mulVec, Matrix.dotProduct, Fin.sum_univ_four]

theorem Predict_iterate_x (s : KalmanFilter 4 m α) (dt : α) (hF : s.F_ = constantVelocity dt)
    (k : ℕ) :
    (Predict^[k] s).x_ =
      ![s.x_ 0 + k * dt * s.x_ 2, s.x_ 1 + k * dt * s.x_ 3, s.x_ 2, s.x_ 3] := by
  induction k with
  | zero =>
    ext i
    fin_cases i <;> simp
  | succ k ih =>
    rw [Function.iterate_succ_apply']
    show (Predict^[k] s).F_ *ᵥ (Predict^[k] s).x_ = _
    rw [(Predict_iterate_models s k).1, hF, constantVelocity_mulVec, ih]
    ext i
    fin_cases i <;> simp <;> ring

end iterate

/-- C14. For the constant-velocity transition with time step `Δt` and `Q = 0`, every
initial state `(px, py, vx, vy)` with covariance `P₀` and every `k`, after `k` calls of
`Predict` the state is `(px + k·Δt·vx, py + k·Δt·vy, vx, vy)` and the covariance is
`Fᵏ·P₀·(Fᵏ)ᵗ`. -/
theorem Predict_extrapolation [Field α] (s : KalmanFilter 4 m α) (dt : α)
    (hF : s.F_ = constantVelocity dt) (hQ : s.Q_ = 0) (k : ℕ) :
    (Predict^[k] s).x_ =
        ![s.x_ 0 + k * dt * s.x_ 2, s.x_ 1 + k * dt * s.x_ 3, s.x_ 2, s.x_ 3] ∧
      (Predict^[k] s).P_ = s.F_ ^ k * s.P_ * (s.F_ ^ k)ᵀ :=
  ⟨Predict_iterate_x s dt hF k, Predict_iterate_P s hQ k⟩

/-- C14 at `coastingState`, time step `1/2`, after four calls: the position moves from
`(3, 4)` to `(5, 8)`. -/
theorem Predict_extrapolation_witness :
    coastingState.F_ = constantVelocity (1 / 2) ∧ coastingState.Q_ = 0 ∧
    (Predict^[4] coastingState).x_ = ![5, 8, 1, 2] ∧
    (Predict^[4] coastingState).P_ =
      coastingState.F_ ^ 4 * coastingState.P_ * (coastingState.F_ ^ 4)ᵀ := by
  have h := Predict_extrapolation coastingState (1 / 2) rfl rfl 4
  refine ⟨rfl, rfl, h.1.trans ?_, h.2⟩
  ext i
  fin_cases i <;> simp [coastingState] <;> norm_num


/-! ## C15: prediction followed by an update at the predicted measurement -/

theorem Predict_P_posSemidef (s : KalmanFilter n m ℝ) (hP : s.P_.PosSemidef)
    (hQ : s.Q_.PosSemidef) : (Predict s).P_.PosSemidef := by
  have h := hP.mul_mul_conjTranspose_same s.F_
  rw [Matrix.conjTranspose_eq_transpose_of_trivial] at h
  exact h.add hQ

/-- C15. For symmetric positive semi-definite `P` and `Q` and symmetric positive definite
`R`, `Predict` followed by `Update z` with `z = H·(F·x)` yields a state whose `x` is the
predicted state `F·x` and whose covariance has a trace no larger than the trace of the
predicted covariance `F·P·Fᵗ + Q`. -/
theorem Predict_Update_round_trip (s : KalmanFilter n m ℝ) (hP : s.P_.PosSemidef)
    (hQ : s.Q_.PosSemidef) (hR : s.R_.PosDef) :
    ∃ s' : KalmanFilter n m ℝ, Update (Predict s) (s.H_ *ᵥ (s.F_ *ᵥ s.x_)) = some s' ∧
      s'.x_ = s.F_ *ᵥ s.x_ ∧ s'.P_.trace ≤ (s.F_ * s.P_ * s.F_ᵀ + s.Q_).trace := by
  have hP1 := Predict_P_posSemidef s hP hQ
  have hR1 : (Predict s).R_.PosDef := hR
  refine ⟨_, Update_of_inverse (Predict s) _ _
    (innovation_covariance_inv (Predict s).P_ (Predict s).H_ (Predict s).R_ hP1 hR1).1, ?_, ?_⟩
  · show s.F_ *ᵥ s.x_ + _ *ᵥ (s.H_ *ᵥ (s.F_ *ᵥ s.x_) - s.H_ *ᵥ (s.F_ *ᵥ s.x_)) = _
    rw [sub_self, Matrix.mulVec_zero, add_zero]
  · have h := posSemidef_trace_nonneg
      (covariance_decrease_posSemidef (Predict s).P_ (Predict s).H_ (Predict s).R_ hP1 hR1)
    rw [Matrix.trace_sub] at h
    exact sub_nonneg.1 h

/-- C15 at `unitState`. -/
theorem Predict_Update_round_trip_witness :
    unitState.P_.PosSemidef ∧ unitState.Q_.PosSemidef ∧ unitState.R_.PosDef ∧
    ∃ s' : KalmanFilter 2 1 ℝ,
      Update (Predict unitState) (unitState.H_ *ᵥ (unitState.F_ *ᵥ unitState.x_)) = some s' ∧
      s'.x_ = unitState.F_ *ᵥ unitState.x_ ∧
      s'.P_.trace ≤ (unitState.F_ * unitState.P_ * unitState.F_ᵀ + unitState.Q_).trace :=
  ⟨Matrix.PosSemidef.one, Matrix.PosSemidef.zero, Matrix.PosDef.one,
    Predict_Update_round_trip unitState Matrix.PosSemidef.one Matrix.PosSemidef.zero
      Matrix.PosDef.one⟩

/-! ## C16: calls before `Init` -/

section shapes
variable [Field α]

/-- On conforming states `PredictXd` is `Predict`. -/
theorem PredictXd_toXd (s : KalmanFilter n m α) :
    PredictXd s.toXd = some (Predict s).toXd := by
  simp [PredictXd, KalmanFilter.toXd, MatrixXd.mulVec, MatrixXd.mul, MatrixXd.add,
    MatrixXd.transpose, Predict]
  rfl

theorem PredictXd_new :
    PredictXd (KalmanFilterXd.new : KalmanFilterXd α) = some KalmanFilterXd.new := by
  simp [PredictXd, KalmanFilterXd.new, MatrixXd.mulVec, MatrixXd.mul, MatrixXd.add,
    MatrixXd.transpose, MatrixXd.empty, VectorXd.empty]
  constructor
  · funext i
    exact i.elim0
  · funext i
    exact i.elim0

end shapes

/-- The default constructed state of the dimension-typed embedding is the default
constructed state with run-time shapes. -/
theorem KalmanFilter.new_toXd [Zero α] :
    (KalmanFilter.new : KalmanFilter 0 0 α).toXd = KalmanFilterXd.new := by
  simp only [KalmanFilter.toXd, KalmanFilter.new, KalmanFilterXd.new, MatrixXd.empty,
    VectorXd.empty]
  congr <;> funext i <;> exact i.elim0

/-- The shapes are checked: on `misshapenState` the product `F_ * x_` has no result. -/
theorem PredictXd_misshapen : PredictXd misshapenState = none := by
  simp [PredictXd, misshapenState, KalmanFilter.toXd, MatrixXd.mulVec]

/-- C16, counterexample. On the default constructed estimator, on which `Init` was never
called, `Predict` does not fail: every product and sum is one of empty operands, and the
call returns with the state as it was. -/
theorem Predict_before_Init_returns :
    PredictXd (KalmanFilterXd.new : KalmanFilterXd ℚ) ≠ none ∧
    PredictXd (KalmanFilterXd.new : KalmanFilterXd ℚ) = some KalmanFilterXd.new ∧
    (KalmanFilterXd.new : KalmanFilterXd ℚ).x_.size = 0 :=
  ⟨by rw [PredictXd_new]; exact Option.some_ne_none _, PredictXd_new, rfl⟩

/-- C16, amended. On an estimator on which `Init` was never called `Predict` does not fail:
it computes on the default, empty state, returns, and leaves every member empty. -/
theorem Predict_before_Init [Field α] :
    ∃ s : KalmanFilterXd α, PredictXd KalmanFilterXd.new = some s ∧
      s.x_.size = 0 ∧ (s.P_.rows = 0 ∧ s.P_.cols = 0) ∧ (s.F_.rows = 0 ∧ s.F_.cols = 0) ∧
      (s.H_.rows = 0 ∧ s.H_.cols = 0) ∧ (s.R_.rows = 0 ∧ s.R_.cols = 0) ∧
      (s.Q_.rows = 0 ∧ s.Q_.cols = 0) :=
  ⟨KalmanFilterXd.new, PredictXd_new, rfl, ⟨rfl, rfl⟩, ⟨rfl, rfl⟩, ⟨rfl, rfl⟩, ⟨rfl, rfl⟩,
    ⟨rfl, rfl⟩⟩

/-! ## C17: `Init` -/

/-- C17. For every prior state (of any dimensions) and all arguments, `Init` leaves the
estimator with each argument in the member of the same name; the result is the same for
every other prior state, and a second `Init` with the same arguments changes nothing. -/
theorem Init_spec {k l n' m' : ℕ} (s : KalmanFilter n m α) (s' : KalmanFilter n' m' α)
    (x0 : Fin k → α) (P0 F0 : Matrix (Fin k) (Fin k) α) (H0 : Matrix (Fin l) (Fin k) α)
    (R0 : Matrix (Fin l) (Fin l) α) (Q0 : Matrix (Fin k) (Fin k) α) :
    (Init s x0 P0 F0 H0 R0 Q0).x_ = x0 ∧ (Init s x0 P0 F0 H0 R0 Q0).P_ = P0 ∧
    (Init s x0 P0 F0 H0 R0 Q0).F_ = F0 ∧ (Init s x0 P0 F0 H0 R0 Q0).H_ = H0 ∧
    (Init s x0 P0 F0 H0 R0 Q0).R_ = R0 ∧ (Init s x0 P0 F0 H0 R0 Q0).Q_ = Q0 ∧
    Init s' x0 P0 F0 H0 R0 Q0 = Init s x0 P0 F0 H0 R0 Q0 ∧
    Init (Init s x0 P0 F0 H0 R0 Q0) x0 P0 F0 H0 R0 Q0 = Init s x0 P0 F0 H0 R0 Q0 :=
  ⟨rfl, rfl, rfl, rfl, rfl, rfl, rfl, rfl⟩


/-! ## C18: the nonlinear update as a linear update -/

section lemmas
variable [Field α] [DecidableEq α]

/-- The covariance after `Update` does not depend on the measurement. -/
theorem Update_P_independent (s : KalmanFilter n m α) (z z' : Fin m → α) :
    (Update s z).map (fun s' => s'.P_) = (Update s z').map (fun s' => s'.P_) := by
  simp only [Update]
  cases inverse (s.H_ * s.P_ * s.H_ᵀ + s.R_) <;> rfl

end lemmas

theorem UpdateEKF_eq_Update_of_range_ne_zero (s : KalmanFilter 4 3 ℝ) (z : Fin 3 → ℝ)
    (h : s.x_ 0 ^ 2 + s.x_ 1 ^ 2 ≠ 0) :
    UpdateEKF s z = Update s
      (z - ![Real.sqrt (s.x_ 0 ^ 2 + s.x_ 1 ^ 2), Complex.arg ⟨s.x_ 0, s.x_ 1⟩,
          (s.x_ 0 * s.x_ 2 + s.x_ 1 * s.x_ 3) / Real.sqrt (s.x_ 0 ^ 2 + s.x_ 1 ^ 2)] +
        s.H_ *ᵥ s.x_) := by
  simp only [UpdateEKF, Update, UpdateEKF_y_of_range_ne_zero s z h, add_sub_cancel_right]
  cases inverse (s.H_ * s.P_ * s.H_ᵀ + s.R_) <;> rfl

/-- C18. From a state with non-zero range, `UpdateEKF z` and `Update (z − h(x) + H·x)`
have the same outcome, a state whenever `S = H·P·Hᵗ + R` has an inverse; and the covariance
after either update is the same for every pair of measurements. -/
theorem UpdateEKF_eq_Update (s : KalmanFilter 4 3 ℝ) (z z' : Fin 3 → ℝ)
    (hrange : s.x_ 0 ^ 2 + s.x_ 1 ^ 2 ≠ 0) :
    ∃ hx : Fin 3 → ℝ, ProjectToMeasurmentSpace s = some (hx, s) ∧
      UpdateEKF s z = Update s (z - hx + s.H_ *ᵥ s.x_) ∧
      (∀ Sinv : Matrix (Fin 3) (Fin 3) ℝ, (s.H_ * s.P_ * s.H_ᵀ + s.R_) * Sinv = 1 →
        ∃ s' : KalmanFilter 4 3 ℝ, UpdateEKF s z = some s' ∧
          Update s (z - hx + s.H_ *ᵥ s.x_) = some s') ∧
      (UpdateEKF s z).map (fun s' => s'.P_) = (UpdateEKF s z').map (fun s' => s'.P_) ∧
      (Update s z).map (fun s' => s'.P_) = (Update s z').map (fun s' => s'.P_) := by
  have e := UpdateEKF_eq_Update_of_range_ne_zero s z hrange
  refine ⟨_, Project_of_range_ne_zero s hrange, e, ?_, ?_, Update_P_independent s z z'⟩
  · intro Sinv hS
    exact ⟨_, e.trans (Update_of_inverse s _ Sinv hS), Update_of_inverse s _ Sinv hS⟩
  · rw [e, UpdateEKF_eq_Update_of_range_ne_zero s z' hrange]
    exact Update_P_independent s _ _

/-- C18 at `trackState` with the measurements `(5, 1, 2)` and `(6, 0, 0)`. -/
theorem UpdateEKF_eq_Update_witness :
    trackState.x_ 0 ^ 2 + trackState.x_ 1 ^ 2 ≠ 0 ∧
    ∃ hx : Fin 3 → ℝ, ProjectToMeasurmentSpace trackState = some (hx, trackState) ∧
      UpdateEKF trackState ![5, 1, 2] =
        Update trackState (![5, 1, 2] - hx + trackState.H_ *ᵥ trackState.x_) ∧
      (∀ Sinv : Matrix (Fin 3) (Fin 3) ℝ,
        (trackState.H_ * trackState.P_ * trackState.H_ᵀ + trackState.R_) * Sinv = 1 →
        ∃ s' : KalmanFilter 4 3 ℝ, UpdateEKF trackState ![5, 1, 2] = some s' ∧
          Update trackState (![5, 1, 2] - hx + trackState.H_ *ᵥ trackState.x_) = some s') ∧
      (UpdateEKF trackState ![5, 1, 2]).map (fun s' => s'.P_) =
        (UpdateEKF trackState ![6, 0, 0]).map (fun s' => s'.P_) ∧
      (Update trackState ![5, 1, 2]).map (fun s' => s'.P_) =
        (Update trackState ![6, 0, 0]).map (fun s' => s'.P_) :=
  ⟨trackState_range_ne_zero,
    UpdateEKF_eq_Update trackState ![5, 1, 2] ![6, 0, 0] trackState_range_ne_zero⟩

/-! ## C19: the residual after the update -/

/-- C19. For every state, every measurement `z` and `S⁻¹` an inverse of `S = H·P·Hᵗ + R`,
the state `x'` after `Update z` satisfies `z − H·x' = R·S⁻¹·(z − H·x)`; hence with `R = 0`
the updated state reproduces the measurement, `H·x' = z`. -/
theorem Update_residual [Field α] [DecidableEq α] (s : KalmanFilter n m α) (z : Fin m → α)
    (Sinv : Matrix (Fin m) (Fin m) α) (hS : (s.H_ * s.P_ * s.H_ᵀ + s.R_) * Sinv = 1) :
    ∃ s' : KalmanFilter n m α, Update s z = some s' ∧
      z - s.H_ *ᵥ s'.x_ = (s.R_ * Sinv) *ᵥ (z - s.H_ *ᵥ s.x_) ∧
      (s.R_ = 0 → s.H_ *ᵥ s'.x_ = z) := by
  have hres : z - s.H_ *ᵥ (s.x_ + (s.P_ * s.H_ᵀ * Sinv) *ᵥ (z - s.H_ *ᵥ s.x_)) =
      (s.R_ * Sinv) *ᵥ (z - s.H_ *ᵥ s.x_) := by
    have hHK : s.H_ * (s.P_ * s.H_ᵀ * Sinv) = 1 - s.R_ * Sinv := by
      rw [← hS, Matrix.add_mul, add_sub_cancel_right]
      simp only [Matrix.mul_assoc]
    rw [Matrix.mulVec_add, Matrix.mulVec_mulVec, hHK, Matrix.sub_mulVec, Matrix.one_mulVec]
    abel
  refine ⟨_, Update_of_inverse s z Sinv hS, hres, fun hR => ?_⟩
  have h0 := hres
  rw [hR, Matrix.zero_mul, Matrix.zero_mulVec] at h0
  exact (sub_eq_zero.1 h0).symm

theorem exactState_S_inv :
    (exactState.H_ * exactState.P_ * exactState.H_ᵀ + exactState.R_) * 1 = 1 := by
  ext i j
  fin_cases i; fin_cases j
  simp [exactState, exampleState, Matrix.mul_apply, Fin.sum_univ_succ, Matrix.vecHead,
    Matrix.vecTail]

theorem exactState_R : exactState.R_ = 0 := by
  ext i j
  fin_cases i; fin_cases j
  simp [exactState]

/-- C19 at `exactState` (`R = 0`) with the measurement `3`: the measured component of the
updated state is `3`. -/
theorem Update_residual_witness :
    (exactState.H_ * exactState.P_ * exactState.H_ᵀ + exactState.R_) * 1 = 1 ∧
    ∃ s' : KalmanFilter 2 1 ℚ, Update exactState ![3] = some s' ∧
      ![3] - exactState.H_ *ᵥ s'.x_ =
        (exactState.R_ * 1) *ᵥ (![3] - exactState.H_ *ᵥ exactState.x_) ∧
      exactState.H_ *ᵥ s'.x_ = ![3] := by
  obtain ⟨s', h1, h2, h3⟩ := Update_residual exactState ![3] 1 exactState_S_inv
  exact ⟨exactState_S_inv, s', h1, h2, h3 exactState_R⟩

/-! ## C20: bounds on the projection -/

theorem abs_range_rate_le (px py vx vy : ℝ) (h : px ^ 2 + py ^ 2 ≠ 0) :
    |(px * vx + py * vy) / Real.sqrt (px ^ 2 + py ^ 2)| ≤ Real.sqrt (vx ^ 2 + vy ^ 2) := by
  have hr : 0 < Real.sqrt (px ^ 2 + py ^ 2) :=
    Real.sqrt_pos.2 (lt_of_le_of_ne (by positivity) (Ne.symm h))
  rw [abs_div, abs_of_pos hr, div_le_iff₀ hr, ← Real.sqrt_mul (by positivity)]
  apply Real.abs_le_sqrt
  nlinarith [sq_nonneg (px * vy - py * vx)]

/-- C20. For every state `(px, py, vx, vy)` with `px² + py² ≠ 0` the output
`(range, bearing, range_rate)` of `ProjectToMeasurmentSpace` satisfies `range > 0`,
`bearing ∈ (−π, π]` and `|range_rate| ≤ sqrt(vx² + vy²)`. -/
theorem ProjectToMeasurmentSpace_bounds (s : KalmanFilter 4 3 ℝ)
    (hrange : s.x_ 0 ^ 2 + s.x_ 1 ^ 2 ≠ 0) :
    ∃ hx : Fin 3 → ℝ, ProjectToMeasurmentSpace s = some (hx, s) ∧
      0 < hx 0 ∧ hx 1 ∈ Set.Ioc (-Real.pi) Real.pi ∧
      |hx 2| ≤ Real.sqrt (s.x_ 2 ^ 2 + s.x_ 3 ^ 2) := by
  refine ⟨_, Project_of_range_ne_zero s hrange, ?_, ?_, ?_⟩
  · exact Real.sqrt_pos.2 (lt_of_le_of_ne (by positivity) (Ne.symm hrange))
  · exact Complex.arg_mem_Ioc _
  · exact abs_range_rate_le _ _ _ _ hrange

/-- C20 at `trackState`, position `(3, 4)` and velocity `(1, 2)`. -/
theorem ProjectToMeasurmentSpace_bounds_witness :
    trackState.x_ 0 ^ 2 + trackState.x_ 1 ^ 2 ≠ 0 ∧
    ∃ hx : Fin 3 → ℝ, ProjectToMeasurmentSpace trackState = some (hx, trackState) ∧
      0 < hx 0 ∧ hx 1 ∈ Set.Ioc (-Real.pi) Real.pi ∧
      |hx 2| ≤ Real.sqrt (trackState.x_ 2 ^ 2 + trackState.x_ 3 ^ 2) :=
  ⟨trackState_range_ne_zero, ProjectToMeasurmentSpace_bounds trackState trackState_range_ne_zero⟩

end Kalman
